import Mathlib

/-!
Verification development for the EVE-L-Preview window-preview engine.

The definitions below are a shallow embedding of the Rust sources:
`src/cycle_state.rs` (hotkey cycle navigator), `src/persistence.rs`
(position resolver), `src/config.rs` (persistent per-character state)
and `src/event_handler.rs` (event dispatcher arms).  Rust `HashMap`s
are modelled as association lists with unique keys, machine integers
as `Nat`/`Int`, and the unbounded `loop` in the cycle functions as a
fuel-based recursion with fuel `config_order.len()` (the loop body
runs at most that many times before it either finds an active entry
or wraps back to its starting index).
-/

set_option maxHeartbeats 1000000

namespace EvePreview

/-- X11 window handle (`x11rb::protocol::xproto::Window`, a `u32`). -/
abbrev Window := Nat

/-- First-match association-list lookup, modelling `HashMap::get`. -/
def alookup {α β : Type} [DecidableEq α] : List (α × β) → α → Option β
  | [], _ => none
  | (k, v) :: rest, a => if k = a then some v else alookup rest a

/-- Association-list insert, modelling `HashMap::insert`: replace the
binding of the key if present, otherwise append a new binding. -/
def ainsert {α β : Type} [DecidableEq α] : List (α × β) → α → β → List (α × β)
  | [], a, b => [(a, b)]
  | (k, v) :: rest, a, b => if k = a then (a, b) :: rest else (k, v) :: ainsert rest a b

/-- Association-list removal of (the first binding of) a key, modelling
`HashMap::remove`. -/
def aerase {α β : Type} [DecidableEq α] : List (α × β) → α → List (α × β)
  | [], _ => []
  | (k, v) :: rest, a => if k = a then rest else (k, v) :: aerase rest a

/-- `self.active_windows.iter().find(|&(_, &w)| w == window)`: reverse
lookup of a character name by window handle. -/
def findNameByWindow : List (String × Window) → Window → Option String
  | [], _ => none
  | (k, v) :: rest, w => if v = w then some k else findNameByWindow rest w

/-- `CycleState` from `src/cycle_state.rs`: configured character order,
current cursor into it, and the map of currently active windows. -/
structure CycleState where
  config_order : List String
  current_index : Nat
  active_windows : List (String × Window)
deriving DecidableEq, Repr

namespace CycleState

/-- `CycleState::new`. -/
def new (config_order : List String) : CycleState :=
  { config_order := config_order, current_index := 0, active_windows := [] }

/-- `CycleState::add_window`: register a window for a character and
auto-append the name to the config order if it is not there yet. -/
def add_window (s : CycleState) (character_name : String) (window : Window) : CycleState :=
  { s with
    active_windows := ainsert s.active_windows character_name window
    config_order :=
      if s.config_order.contains character_name then s.config_order
      else s.config_order ++ [character_name] }

/-- `CycleState::clamp_index`: reset the cursor to 0 when it falls out
of range of a non-empty config order. -/
def clamp_index (s : CycleState) : CycleState :=
  if s.config_order ≠ [] ∧ s.current_index ≥ s.config_order.length then
    { s with current_index := 0 }
  else s

/-- `CycleState::remove_window`: drop the entry whose handle matches,
then clamp the cursor. -/
def remove_window (s : CycleState) (window : Window) : CycleState :=
  match findNameByWindow s.active_windows window with
  | some name => clamp_index { s with active_windows := aerase s.active_windows name }
  | none => s

/-- `CycleState::update_character`: remove the old entry for the handle
(without clamping) and re-add under the new name. -/
def update_character (s : CycleState) (window : Window) (new_name : String) : CycleState :=
  let s' :=
    match findNameByWindow s.active_windows window with
    | some old_name => { s with active_windows := aerase s.active_windows old_name }
    | none => s
  s'.add_window new_name window

/-- `CycleState::set_current`: jump the cursor to a name's position in
the config order; report whether the name was found. -/
def set_current (s : CycleState) (character_name : String) : Bool × CycleState :=
  match s.config_order.findIdx? (fun c => c = character_name) with
  | some index => (true, { s with current_index := index })
  | none => (false, s)

end CycleState

/-- The `loop` body of `CycleState::cycle_forward`: step the index to
`(i + 1) % len`, return on an active entry, stop after a full wrap back
to `start`.  Fuel `config_order.length` suffices for the loop's own
termination argument. -/
def cycleScanF (order : List String) (active : List (String × Window)) (start : Nat) :
    Nat → Nat → Nat × Option Window
  | i, 0 => (i, none)
  | i, fuel + 1 =>
    let j := (i + 1) % order.length
    match alookup active (order.getD j "") with
    | some w => (j, some w)
    | none => if j = start then (j, none) else cycleScanF order active start j fuel

/-- The `loop` body of `CycleState::cycle_backward`: step the index to
`len - 1` when it is 0 and to `i - 1` otherwise. -/
def cycleScanB (order : List String) (active : List (String × Window)) (start : Nat) :
    Nat → Nat → Nat × Option Window
  | i, 0 => (i, none)
  | i, fuel + 1 =>
    let j := if i = 0 then order.length - 1 else i - 1
    match alookup active (order.getD j "") with
    | some w => (j, some w)
    | none => if j = start then (j, none) else cycleScanB order active start j fuel

namespace CycleState

/-- `CycleState::cycle_forward`: guard the empty cases, then run the
scan loop; returns the window to activate and the updated state. -/
def cycle_forward (s : CycleState) : Option Window × CycleState :=
  if s.active_windows = [] then (none, s)
  else if s.config_order = [] then (none, s)
  else
    let r := cycleScanF s.config_order s.active_windows s.current_index
      s.current_index s.config_order.length
    (r.2, { s with current_index := r.1 })

/-- `CycleState::cycle_backward`. -/
def cycle_backward (s : CycleState) : Option Window × CycleState :=
  if s.active_windows = [] then (none, s)
  else if s.config_order = [] then (none, s)
  else
    let r := cycleScanB s.config_order s.active_windows s.current_index
      s.current_index s.config_order.length
    (r.2, { s with current_index := r.1 })

end CycleState

-- Sanity checks mirroring the Rust unit tests in `cycle_state.rs`.
example :
    let s := (((CycleState.new ["Char1", "Char2", "Char3"]).add_window "Char1" 100).add_window
      "Char2" 200).add_window "Char3" 300
    (s.cycle_forward.1, s.cycle_forward.2.cycle_forward.1,
      s.cycle_forward.2.cycle_forward.2.cycle_forward.1) =
      (some 200, some 300, some 100) := by decide

example :
    let s := (((CycleState.new ["Char1", "Char2", "Char3"]).add_window "Char1" 100).add_window
      "Char2" 200).add_window "Char3" 300
    (s.cycle_backward.1, s.cycle_backward.2.cycle_backward.1,
      s.cycle_backward.2.cycle_backward.2.cycle_backward.1) =
      (some 300, some 200, some 100) := by decide

example :
    let s := ((CycleState.new ["Active1", "Inactive", "Active2"]).add_window "Active1" 100).add_window
      "Active2" 300
    (s.cycle_forward.1, s.cycle_forward.2.cycle_forward.1) = (some 300, some 100) := by decide

example :
    let s := ((CycleState.new ["Char1", "Char2"]).add_window "Char1" 100).add_window "Char2" 200
    let s1 := (s.set_current "Char2").2
    (s1.remove_window 200).cycle_forward.1 = some 100 := by decide

example : (CycleState.new []).cycle_forward.1 = none := by decide

example :
    let s := ((CycleState.new ["OldName"]).add_window "OldName" 100).update_character 100 "NewName"
    alookup s.active_windows "NewName" = some 100 ∧ alookup s.active_windows "OldName" = none := by
  decide

/-- Whenever the forward scan loop returns a window, the character name
at the index it stopped at maps to that window in `active`. -/
theorem cycleScanF_some (order : List String) (active : List (String × Window))
    (start : Nat) (w : Window) :
    ∀ fuel i, (cycleScanF order active start i fuel).2 = some w →
      alookup active (order.getD (cycleScanF order active start i fuel).1 "") = some w := by
  intro fuel
  induction fuel with
  | zero => intro i h; simp [cycleScanF] at h
  | succ n ih =>
    intro i h
    rw [cycleScanF] at h ⊢
    cases hl : alookup active (order.getD ((i + 1) % order.length) "") with
    | some w' => simp only [hl] at h ⊢; simpa using h
    | none =>
      simp only [hl] at h ⊢
      by_cases hj : (i + 1) % order.length = start
      · simp [hj] at h
      · simp only [hj, if_false] at h ⊢
        exact ih _ h

/-- Whenever the backward scan loop returns a window, the character name
at the index it stopped at maps to that window in `active`. -/
theorem cycleScanB_some (order : List String) (active : List (String × Window))
    (start : Nat) (w : Window) :
    ∀ fuel i, (cycleScanB order active start i fuel).2 = some w →
      alookup active (order.getD (cycleScanB order active start i fuel).1 "") = some w := by
  intro fuel
  induction fuel with
  | zero => intro i h; simp [cycleScanB] at h
  | succ n ih =>
    intro i h
    rw [cycleScanB] at h ⊢
    cases hl : alookup active (order.getD (if i = 0 then order.length - 1 else i - 1) "") with
    | some w' => simp only [hl] at h ⊢; simpa using h
    | none =>
      simp only [hl] at h ⊢
      by_cases hj : (if i = 0 then order.length - 1 else i - 1) = start
      · simp [hj] at h
      · simp only [hj, if_false] at h ⊢
        exact ih _ h

theorem cycle_forward_config_order (s : CycleState) :
    s.cycle_forward.2.config_order = s.config_order := by
  unfold CycleState.cycle_forward
  by_cases h1 : s.active_windows = [] <;> by_cases h2 : s.config_order = [] <;> simp [h1, h2]

theorem cycle_forward_active_windows (s : CycleState) :
    s.cycle_forward.2.active_windows = s.active_windows := by
  unfold CycleState.cycle_forward
  by_cases h1 : s.active_windows = [] <;> by_cases h2 : s.config_order = [] <;> simp [h1, h2]

theorem cycle_backward_config_order (s : CycleState) :
    s.cycle_backward.2.config_order = s.config_order := by
  unfold CycleState.cycle_backward
  by_cases h1 : s.active_windows = [] <;> by_cases h2 : s.config_order = [] <;> simp [h1, h2]

theorem cycle_backward_active_windows (s : CycleState) :
    s.cycle_backward.2.active_windows = s.active_windows := by
  unfold CycleState.cycle_backward
  by_cases h1 : s.active_windows = [] <;> by_cases h2 : s.config_order = [] <;> simp [h1, h2]

/-- C1: whenever `cycle_forward` or `cycle_backward` returns a window
handle, the character name at the resulting `current_index` is a key of
`active_windows` and that key maps exactly to the returned handle; a
cycling call never yields a name absent from the active-window map.
(Proved for every `CycleState`, hence for every reachable one.) -/
theorem cycling_returns_active_entry (s : CycleState) (w : Window) :
    (s.cycle_forward.1 = some w →
      alookup s.cycle_forward.2.active_windows
        (s.cycle_forward.2.config_order.getD s.cycle_forward.2.current_index "") = some w) ∧
    (s.cycle_backward.1 = some w →
      alookup s.cycle_backward.2.active_windows
        (s.cycle_backward.2.config_order.getD s.cycle_backward.2.current_index "") = some w) := by
  constructor
  · intro h
    rw [cycle_forward_active_windows, cycle_forward_config_order]
    unfold CycleState.cycle_forward at h ⊢
    by_cases h1 : s.active_windows = []
    · simp [h1] at h
    · by_cases h2 : s.config_order = []
      · simp [h1, h2] at h
      · simp only [h1, h2, if_neg, ite_false] at h ⊢
        exact cycleScanF_some _ _ _ _ _ _ h
  · intro h
    rw [cycle_backward_active_windows, cycle_backward_config_order]
    unfold CycleState.cycle_backward at h ⊢
    by_cases h1 : s.active_windows = []
    · simp [h1] at h
    · by_cases h2 : s.config_order = []
      · simp [h1, h2] at h
      · simp only [h1, h2, if_neg, ite_false] at h ⊢
        exact cycleScanB_some _ _ _ _ _ _ h

/-- Witness for C1 at a concrete state: cycling forward from `A` in
`{A:10, B:20, C:30}` returns handle 20, and the name at the new index
(`B`) indeed maps to 20. -/
theorem cycling_returns_active_entry_witness :
    alookup ((((CycleState.new ["A", "B", "C"]).add_window "A" 10).add_window "B" 20).add_window
        "C" 30).cycle_forward.2.active_windows
      (((((CycleState.new ["A", "B", "C"]).add_window "A" 10).add_window "B" 20).add_window
        "C" 30).cycle_forward.2.config_order.getD
        ((((CycleState.new ["A", "B", "C"]).add_window "A" 10).add_window "B" 20).add_window
          "C" 30).cycle_forward.2.current_index "") = some 20 :=
  (cycling_returns_active_entry
    ((((CycleState.new ["A", "B", "C"]).add_window "A" 10).add_window "B" 20).add_window "C" 30)
    20).1 (by decide)

/-- C4: with `CycleOrder = [A, B, C]` and `CurrentIndex = 0`, if all of
`A:10, B:20, C:30` are active, three forward cycles return 20, 30, 10
with the index moving 1, 2, 0; if only `A:10, C:30` are active, the
first forward cycle skips `B` and returns 30 directly. -/
theorem cycle_forward_scenarios :
    ((((((CycleState.new ["A", "B", "C"]).add_window "A" 10).add_window "B" 20).add_window
        "C" 30).cycle_forward.1 = some 20) ∧
      ((((CycleState.new ["A", "B", "C"]).add_window "A" 10).add_window "B" 20).add_window
        "C" 30).cycle_forward.2.current_index = 1 ∧
      ((((CycleState.new ["A", "B", "C"]).add_window "A" 10).add_window "B" 20).add_window
        "C" 30).cycle_forward.2.cycle_forward.1 = some 30 ∧
      ((((CycleState.new ["A", "B", "C"]).add_window "A" 10).add_window "B" 20).add_window
        "C" 30).cycle_forward.2.cycle_forward.2.current_index = 2 ∧
      ((((CycleState.new ["A", "B", "C"]).add_window "A" 10).add_window "B" 20).add_window
        "C" 30).cycle_forward.2.cycle_forward.2.cycle_forward.1 = some 10 ∧
      ((((CycleState.new ["A", "B", "C"]).add_window "A" 10).add_window "B" 20).add_window
        "C" 30).cycle_forward.2.cycle_forward.2.cycle_forward.2.current_index = 0) ∧
    ((((CycleState.new ["A", "B", "C"]).add_window "A" 10).add_window
        "C" 30).cycle_forward.1 = some 30 ∧
      (((CycleState.new ["A", "B", "C"]).add_window "A" 10).add_window
        "C" 30).cycle_forward.2.current_index = 2) := by decide

/-! ### C3: add/remove sequences and the active-window map -/

/-- Keys of an association list. -/
def keys {α β : Type} (l : List (α × β)) : List α := l.map Prod.fst

/-- Values of an association list. -/
def vals {α β : Type} (l : List (α × β)) : List β := l.map Prod.snd

theorem keys_of_mem {α β : Type} {l : List (α × β)} {a : α} {b : β}
    (h : (a, b) ∈ l) : a ∈ keys l :=
  List.mem_map_of_mem Prod.fst h

theorem vals_of_mem {α β : Type} {l : List (α × β)} {a : α} {b : β}
    (h : (a, b) ∈ l) : b ∈ vals l :=
  List.mem_map_of_mem Prod.snd h

/-- With duplicate-free keys, a key determines its binding. -/
theorem keys_nodup_val_unique {α β : Type} {l : List (α × β)} (hk : (keys l).Nodup) :
    ∀ {a : α} {b₁ b₂ : β}, (a, b₁) ∈ l → (a, b₂) ∈ l → b₁ = b₂ := by
  induction l with
  | nil => intro a b₁ b₂ h1; simp at h1
  | cons p t ih =>
    simp only [keys, List.map_cons, List.nodup_cons] at hk
    intro a b₁ b₂ h1 h2
    rcases List.mem_cons.mp h1 with h1 | h1 <;> rcases List.mem_cons.mp h2 with h2 | h2
    · exact (Prod.ext_iff.mp (h1.trans h2.symm)).2
    · exact absurd (h1 ▸ keys_of_mem h2 : p.1 ∈ keys t) hk.1
    · exact absurd (h2 ▸ keys_of_mem h1 : p.1 ∈ keys t) hk.1
    · exact ih hk.2 h1 h2

/-- With duplicate-free values, a value determines its key. -/
theorem vals_nodup_key_unique {α β : Type} {l : List (α × β)} (hv : (vals l).Nodup) :
    ∀ {a₁ a₂ : α} {b : β}, (a₁, b) ∈ l → (a₂, b) ∈ l → a₁ = a₂ := by
  induction l with
  | nil => intro a₁ a₂ b h1; simp at h1
  | cons p t ih =>
    simp only [vals, List.map_cons, List.nodup_cons] at hv
    intro a₁ a₂ b h1 h2
    rcases List.mem_cons.mp h1 with h1 | h1 <;> rcases List.mem_cons.mp h2 with h2 | h2
    · exact (Prod.ext_iff.mp (h1.trans h2.symm)).1
    · exact absurd (h1 ▸ vals_of_mem h2 : p.2 ∈ vals t) hv.1
    · exact absurd (h2 ▸ vals_of_mem h1 : p.2 ∈ vals t) hv.1
    · exact ih hv.2 h1 h2

theorem ainsert_not_mem_keys {α β : Type} [DecidableEq α] {l : List (α × β)} {a : α}
    (h : a ∉ keys l) (b : β) : ainsert l a b = l ++ [(a, b)] := by
  induction l with
  | nil => rfl
  | cons p t ih =>
    simp only [keys, List.map_cons, List.mem_cons] at h
    push_neg at h
    cases p with
    | mk k v =>
      simp only [ainsert]
      rw [if_neg (fun hk => h.1 hk.symm), ih (by simpa [keys] using h.2)]
      rfl

theorem aerase_sublist {α β : Type} [DecidableEq α] (l : List (α × β)) (a : α) :
    List.Sublist (aerase l a) l := by
  induction l with
  | nil => exact List.Sublist.refl _
  | cons p t ih =>
    cases p with
    | mk k v =>
      simp only [aerase]
      by_cases hk : k = a
      · simp only [hk, if_true]; exact List.Sublist.cons _ (List.Sublist.refl _)
      · simp only [hk, if_false]; exact List.Sublist.cons₂ _ ih

theorem mem_aerase_of_keys_nodup {α β : Type} [DecidableEq α] {l : List (α × β)}
    (hk : (keys l).Nodup) (c : α) :
    ∀ {a : α} {b : β}, ((a, b) ∈ aerase l c ↔ (a, b) ∈ l ∧ a ≠ c) := by
  induction l with
  | nil => intro a b; simp [aerase]
  | cons p t ih =>
    cases p with
    | mk k v =>
      simp only [keys, List.map_cons, List.nodup_cons] at hk
      intro a b
      simp only [aerase]
      by_cases hkc : k = c
      · subst hkc
        simp only [if_true, List.mem_cons]
        constructor
        · intro hm
          refine ⟨Or.inr hm, fun hak => ?_⟩
          exact hk.1 (hak ▸ keys_of_mem hm)
        · rintro ⟨hm | hm, hne⟩
          · exact absurd (congrArg Prod.fst hm) hne
          · exact hm
      · simp only [hkc, if_false, List.mem_cons, ih hk.2]
        constructor
        · rintro (hm | ⟨hm, hne⟩)
          · exact ⟨Or.inl hm, fun hac => hkc ((congrArg Prod.fst hm).symm.trans hac)⟩
          · exact ⟨Or.inr hm, hne⟩
        · rintro ⟨hm | hm, hne⟩
          · exact Or.inl hm
          · exact Or.inr ⟨hm, hne⟩

theorem findNameByWindow_mem {l : List (String × Window)} {w : Window} {n : String} :
    findNameByWindow l w = some n → (n, w) ∈ l := by
  induction l with
  | nil => intro h; simp [findNameByWindow] at h
  | cons p t ih =>
    cases p with
    | mk k v =>
      intro h
      simp only [findNameByWindow] at h
      by_cases hv : v = w
      · simp only [hv, if_true, Option.some.injEq] at h
        exact List.mem_cons.mpr (Or.inl (by rw [h, hv]))
      · simp only [hv, if_false] at h
        exact List.mem_cons.mpr (Or.inr (ih h))

theorem findNameByWindow_none {l : List (String × Window)} {w : Window} :
    findNameByWindow l w = none → ∀ p ∈ l, Prod.snd p ≠ w := by
  induction l with
  | nil => intro _ p hp; simp at hp
  | cons q t ih =>
    cases q with
    | mk k v =>
      intro h p hp
      simp only [findNameByWindow] at h
      by_cases hv : v = w
      · simp [hv] at h
      · simp only [hv, if_false] at h
        rcases List.mem_cons.mp hp with hp | hp
        · rw [hp]; exact hv
        · exact ih h p hp

theorem clamp_index_active_windows (s : CycleState) :
    s.clamp_index.active_windows = s.active_windows := by
  unfold CycleState.clamp_index; split <;> rfl

theorem remove_window_active_sublist (s : CycleState) (w : Window) :
    List.Sublist (s.remove_window w).active_windows s.active_windows := by
  unfold CycleState.remove_window
  cases hf : findNameByWindow s.active_windows w with
  | none => exact List.Sublist.refl _
  | some name => simpa [clamp_index_active_windows] using aerase_sublist s.active_windows name

/-- With duplicate-free keys and values, `remove_window` removes exactly
the entry carrying the given handle. -/
theorem mem_remove_window_active {s : CycleState} {w' : Window}
    (hk : (keys s.active_windows).Nodup) (hv : (vals s.active_windows).Nodup)
    (n : String) (h : Window) :
    ((n, h) ∈ (s.remove_window w').active_windows ↔
      (n, h) ∈ s.active_windows ∧ h ≠ w') := by
  unfold CycleState.remove_window
  cases hf : findNameByWindow s.active_windows w' with
  | none =>
    simp only
    constructor
    · intro hm
      exact ⟨hm, findNameByWindow_none hf (n, h) hm⟩
    · exact fun hp => hp.1
  | some nm =>
    have hnm : (nm, w') ∈ s.active_windows := findNameByWindow_mem hf
    simp only [clamp_index_active_windows, mem_aerase_of_keys_nodup hk nm]
    constructor
    · rintro ⟨hm, hne⟩
      refine ⟨hm, fun hw => hne ?_⟩
      exact vals_nodup_key_unique hv hm (hw ▸ hnm)
    · rintro ⟨hm, hne⟩
      refine ⟨hm, fun hn2 => hne ?_⟩
      exact keys_nodup_val_unique hk (hn2 ▸ hm) hnm

theorem add_window_active_not_mem {s : CycleState} {n' : String} {h' : Window}
    (hn : n' ∉ keys s.active_windows) :
    (s.add_window n' h').active_windows = s.active_windows ++ [(n', h')] := by
  unfold CycleState.add_window
  simpa using ainsert_not_mem_keys hn h'

/-- One call against the cycle navigator: `add_window` or `remove_window`. -/
inductive WinOp where
  | add (name : String) (w : Window)
  | remove (w : Window)
deriving DecidableEq, Repr

/-- Dispatch one call. -/
def applyOp (s : CycleState) : WinOp → CycleState
  | WinOp.add n w => s.add_window n w
  | WinOp.remove w => s.remove_window w

/-- Dispatch a call sequence left to right. -/
def applyOps : CycleState → List WinOp → CycleState
  | s, [] => s
  | s, op :: rest => applyOps (applyOp s op) rest

/-- Names appearing in `add_window` calls of the sequence. -/
def addNames : List WinOp → List String
  | [] => []
  | WinOp.add n _ :: rest => n :: addNames rest
  | WinOp.remove _ :: rest => addNames rest

/-- Handles appearing in `add_window` calls of the sequence. -/
def addHandles : List WinOp → List Window
  | [] => []
  | WinOp.add _ h :: rest => h :: addHandles rest
  | WinOp.remove _ :: rest => addHandles rest

/-- The claim's "added and not subsequently removed" predicate: some
`add_window(n, h)` call occurs with no later `remove_window(h)` call. -/
def addedNotRemoved (n : String) (h : Window) : List WinOp → Bool
  | [] => false
  | WinOp.add n' h' :: rest =>
    (decide (n' = n) && decide (h' = h) && decide (WinOp.remove h ∉ rest)) ||
      addedNotRemoved n h rest
  | WinOp.remove _ :: rest => addedNotRemoved n h rest

/-- Generalized induction for C3: starting from any state with
duplicate-free keys and values whose entries are disjoint from the
sequence's fresh names and handles, the final map holds the surviving
initial entries plus the added-and-not-removed ones. -/
theorem applyOps_active_mem :
    ∀ (ops : List WinOp) (s : CycleState),
      (keys s.active_windows).Nodup →
      (vals s.active_windows).Nodup →
      (addNames ops).Nodup →
      (addHandles ops).Nodup →
      (∀ x ∈ addNames ops, x ∉ keys s.active_windows) →
      (∀ x ∈ addHandles ops, x ∉ vals s.active_windows) →
      ∀ (n : String) (h : Window),
        ((n, h) ∈ (applyOps s ops).active_windows ↔
          (((n, h) ∈ s.active_windows ∧ WinOp.remove h ∉ ops) ∨
            addedNotRemoved n h ops = true)) := by
  intro ops
  induction ops with
  | nil =>
    intro s _ _ _ _ _ _ n h
    simp [applyOps, addedNotRemoved]
  | cons op rest ih =>
    intro s hk hv hn hh hfn hfh n h
    cases op with
    | add n' h' =>
      have hn' : n' ∉ keys s.active_windows := hfn n' (by simp [addNames])
      have hh' : h' ∉ vals s.active_windows := hfh h' (by simp [addHandles])
      have hact : (s.add_window n' h').active_windows = s.active_windows ++ [(n', h')] :=
        add_window_active_not_mem hn'
      simp only [addNames, List.nodup_cons] at hn
      simp only [addHandles, List.nodup_cons] at hh
      have hkey : (keys (s.add_window n' h').active_windows).Nodup := by
        rw [hact]
        simp only [keys, List.map_append, List.map_cons, List.map_nil]
        refine List.Nodup.append hk (List.nodup_singleton _) ?_
        intro a ha hb
        simp only [List.mem_singleton] at hb
        exact hn' (hb ▸ ha)
      have hval : (vals (s.add_window n' h').active_windows).Nodup := by
        rw [hact]
        simp only [vals, List.map_append, List.map_cons, List.map_nil]
        refine List.Nodup.append hv (List.nodup_singleton _) ?_
        intro a ha hb
        simp only [List.mem_singleton] at hb
        exact hh' (hb ▸ ha)
      have hfn' : ∀ x ∈ addNames rest, x ∉ keys (s.add_window n' h').active_windows := by
        intro x hx hmem
        rw [hact] at hmem
        simp only [keys, List.map_append, List.map_cons, List.map_nil, List.mem_append,
          List.mem_cons, List.not_mem_nil, or_false] at hmem
        rcases hmem with hmem | hmem
        · exact hfn x (by simp [addNames, hx]) hmem
        · exact hn.1 (hmem ▸ hx)
      have hfh' : ∀ x ∈ addHandles rest, x ∉ vals (s.add_window n' h').active_windows := by
        intro x hx hmem
        rw [hact] at hmem
        simp only [vals, List.map_append, List.map_cons, List.map_nil, List.mem_append,
          List.mem_cons, List.not_mem_nil, or_false] at hmem
        rcases hmem with hmem | hmem
        · exact hfh x (by simp [addHandles, hx]) hmem
        · exact hh.1 (hmem ▸ hx)
      have := ih (s.add_window n' h') hkey hval hn.2 hh.2 hfn' hfh' n h
      simp only [applyOps, applyOp]
      rw [this, hact]
      simp only [List.mem_append, List.mem_cons, List.not_mem_nil, or_false,
        addedNotRemoved, Bool.or_eq_true, Bool.and_eq_true, decide_eq_true_eq]
      constructor
      · rintro (⟨hm | hm, hr⟩ | ha)
        · exact Or.inl ⟨hm, by simp [hr]⟩
        · cases hm
          exact Or.inr (Or.inl ⟨⟨rfl, rfl⟩, hr⟩)
        · exact Or.inr (Or.inr ha)
      · rintro (⟨hm, hr⟩ | ⟨⟨he1, he2⟩, hr⟩ | ha)
        · exact Or.inl ⟨Or.inl hm, by simpa using hr⟩
        · exact Or.inl ⟨Or.inr (by rw [he1, he2]), hr⟩
        · exact Or.inr ha
    | remove w' =>
      have hsub : List.Sublist (s.remove_window w').active_windows s.active_windows :=
        remove_window_active_sublist s w'
      have hkey : (keys (s.remove_window w').active_windows).Nodup :=
        (hsub.map Prod.fst).nodup hk
      have hval : (vals (s.remove_window w').active_windows).Nodup :=
        (hsub.map Prod.snd).nodup hv
      have hfn' : ∀ x ∈ addNames rest, x ∉ keys (s.remove_window w').active_windows := by
        intro x hx hm
        exact hfn x (by simpa [addNames] using hx) ((hsub.map Prod.fst).subset hm)
      have hfh' : ∀ x ∈ addHandles rest, x ∉ vals (s.remove_window w').active_windows := by
        intro x hx hm
        exact hfh x (by simpa [addHandles] using hx) ((hsub.map Prod.snd).subset hm)
      have hrest_n : (addNames rest).Nodup := by simpa [addNames] using hn
      have hrest_h : (addHandles rest).Nodup := by simpa [addHandles] using hh
      have := ih (s.remove_window w') hkey hval hrest_n hrest_h hfn' hfh' n h
      simp only [applyOps, applyOp]
      rw [this, mem_remove_window_active hk hv n h]
      simp only [addedNotRemoved, List.mem_cons, WinOp.remove.injEq]
      constructor
      · rintro (⟨⟨hm, hne⟩, hr⟩ | ha)
        · exact Or.inl ⟨hm, by push_neg; exact ⟨hne, hr⟩⟩
        · exact Or.inr ha
      · rintro (⟨hm, hr⟩ | ha)
        · push_neg at hr
          exact Or.inl ⟨⟨hm, hr.1⟩, hr.2⟩
        · exact Or.inr ha

/-- C3 (amended): for a sequence of `add_window`/`remove_window` calls
on a fresh `CycleState` in which the added names are pairwise distinct
and the added handles are pairwise distinct, the resulting
`active_windows` map contains exactly the (name, handle) entries that
were added and not subsequently removed.  (The distinctness hypotheses
are necessary: a second `add_window` with the same name silently
overwrites the first entry without any `remove_window` call.) -/
theorem active_windows_exactly_added_not_removed (order : List String) (ops : List WinOp)
    (hn : (addNames ops).Nodup) (hh : (addHandles ops).Nodup) (n : String) (h : Window) :
    ((n, h) ∈ (applyOps (CycleState.new order) ops).active_windows ↔
      addedNotRemoved n h ops = true) := by
  have := applyOps_active_mem ops (CycleState.new order) (by simp [CycleState.new, keys])
    (by simp [CycleState.new, vals]) hn hh (by simp [CycleState.new, keys])
    (by simp [CycleState.new, vals]) n h
  simpa [CycleState.new] using this

/-- Witness for C3 (amended): after `add A 1; add B 2; remove 1`, entry
`(B, 2)` is in the map and the distinctness hypotheses hold. -/
theorem active_windows_exactly_added_not_removed_witness :
    ("B", (2 : Window)) ∈ (applyOps (CycleState.new [])
      [WinOp.add "A" 1, WinOp.add "B" 2, WinOp.remove 1]).active_windows :=
  (active_windows_exactly_added_not_removed [] _ (by decide) (by decide) "B" 2).mpr (by decide)

/-- Counterexample to C3 as stated: with the call sequence
`add_window("A", 1); add_window("A", 2)` the entry `("A", 1)` was added
and never removed by a `remove_window` call, yet the resulting
`active_windows` map does not contain it — the second add overwrote it. -/
theorem added_entry_can_vanish_without_remove :
    addedNotRemoved "A" 1 [WinOp.add "A" 1, WinOp.add "A" 2] = true ∧
    ("A", (1 : Window)) ∉ (applyOps (CycleState.new [])
      [WinOp.add "A" 1, WinOp.add "A" 2]).active_windows := by decide

/-! ### C5: the position resolver (`src/persistence.rs`) -/

/-- `SavedState` from `src/persistence.rs`: session-only window
positions plus the inherit-window-position policy flag. -/
structure SavedState where
  window_positions : List (Window × (Int × Int))
  inherit_window_position : Bool
deriving DecidableEq, Repr

/-- `SavedState::get_position`: persisted character position first,
then (for named characters, only under the inherit policy) the session
position of the handle, then (for unnamed windows) the session
position, else none. -/
def SavedState.get_position (s : SavedState) (character_name : String) (window : Window)
    (character_positions : List (String × (Int × Int))) : Option (Int × Int) :=
  if character_name ≠ "" then
    match alookup character_positions character_name with
    | some pos => some pos
    | none =>
      if s.inherit_window_position then
        match alookup s.window_positions window with
        | some pos => some pos
        | none => none
      else none
  else
    match alookup s.window_positions window with
    | some pos => some pos
    | none => none

/-- C5: the resolver's priority. A persisted position for a non-empty
name always wins (even with a session position for the handle); a
non-empty name with no persisted position yields none when the inherit
policy is off; an empty name yields the handle's session position when
one was recorded, and none otherwise. -/
theorem get_position_priority (s : SavedState) (name : String) (w : Window)
    (cps : List (String × (Int × Int))) :
    (∀ p : Int × Int, name ≠ "" → alookup cps name = some p →
      s.get_position name w cps = some p) ∧
    (name ≠ "" → alookup cps name = none → s.inherit_window_position = false →
      s.get_position name w cps = none) ∧
    (∀ p : Int × Int, name = "" → alookup s.window_positions w = some p →
      s.get_position name w cps = some p) ∧
    (name = "" → alookup s.window_positions w = none →
      s.get_position name w cps = none) := by
  refine ⟨fun p hne hl => ?_, fun hne hl hi => ?_, fun p he hl => ?_, fun he hl => ?_⟩
  · unfold SavedState.get_position
    rw [if_pos hne, hl]
  · unfold SavedState.get_position
    rw [if_pos hne, hl, hi]
    simp
  · unfold SavedState.get_position
    rw [if_neg (by simp [he]), hl]
  · unfold SavedState.get_position
    rw [if_neg (by simp [he]), hl]

/-- Witness for C5, exercising each branch at concrete inputs
(including the spec's Alice/handle-42 scenarios). -/
theorem get_position_priority_witness :
    (SavedState.mk [(42, ((7 : Int), (8 : Int)))] false).get_position "Alice" 42
      [("Alice", ((1 : Int), (2 : Int)))] = some (1, 2) ∧
    (SavedState.mk [(42, ((7 : Int), (8 : Int)))] false).get_position "Bob" 42
      [("Alice", ((1 : Int), (2 : Int)))] = none ∧
    (SavedState.mk [(42, ((7 : Int), (8 : Int)))] false).get_position "" 42
      [("Alice", ((1 : Int), (2 : Int)))] = some (7, 8) ∧
    (SavedState.mk [] false).get_position "" 42 [] = none :=
  ⟨(get_position_priority (SavedState.mk [(42, ((7 : Int), (8 : Int)))] false) "Alice" 42
      [("Alice", ((1 : Int), (2 : Int)))]).1 (1, 2) (by decide) (by decide),
   (get_position_priority (SavedState.mk [(42, ((7 : Int), (8 : Int)))] false) "Bob" 42
      [("Alice", ((1 : Int), (2 : Int)))]).2.1 (by decide) (by decide) rfl,
   (get_position_priority (SavedState.mk [(42, ((7 : Int), (8 : Int)))] false) "" 42
      [("Alice", ((1 : Int), (2 : Int)))]).2.2.1 (7, 8) rfl (by decide),
   (get_position_priority (SavedState.mk [] false) "" 42 []).2.2.2 rfl (by decide)⟩

/-! ### C6, C7, C8, C9: event dispatcher arms (`src/event_handler.rs`) -/

/-- Per-window drag state (`thumbnail.input_state` as used by the
dispatcher): dragging flag, pointer position at drag start, window
position at drag start. -/
structure InputState where
  dragging : Bool
  drag_start : Int × Int
  win_start : Int × Int
deriving DecidableEq, Repr

/-- Modelled from the spec: the `Thumbnail` struct lives in
`src/thumbnail.rs`, which is not among the sources; its fields follow
the spec's PreviewState record (character name, geometry, flags, input
state) and the field accesses made by `src/event_handler.rs`. -/
structure Thumbnail where
  character_name : String
  x : Int
  y : Int
  width : Int
  height : Int
  visible : Bool
  focused : Bool
  minimized : Bool
  bordered : Bool
  input_state : InputState
deriving DecidableEq, Repr

/-- Modelled from the spec: `Thumbnail::is_hovered` (in the missing
`src/thumbnail.rs`) — "window whose bounds contain (x, y)". -/
def Thumbnail.is_hovered (t : Thumbnail) (px py : Int) : Bool :=
  decide (t.x ≤ px) && decide (px < t.x + t.width) &&
    decide (t.y ≤ py) && decide (py < t.y + t.height)

/-- Modelled from the spec: `Thumbnail::border`, the `setBorder(h, b)`
rendering call — toggles the bordered visual. -/
def Thumbnail.border (t : Thumbnail) (b : Bool) : Thumbnail := { t with bordered := b }

/-- Modelled from the spec: `Thumbnail::visibility`, the
`setVisible(h, b)` rendering call. -/
def Thumbnail.visibility (t : Thumbnail) (b : Bool) : Thumbnail := { t with visible := b }

/-- Modelled from the spec: `Thumbnail::reposition`, the
`reposition(h, x, y)` rendering call — moves the preview tile. -/
def Thumbnail.reposition (t : Thumbnail) (nx ny : Int) : Thumbnail :=
  { t with x := nx, y := ny }

/-- External collaborator calls the dispatcher arms can make:
`raiseAndFocus` (from `thumbnail.focus()`) and the Persistence Bridge's
`saveCharacterSettings` write. -/
inductive XAction where
  | raiseFocus (w : Window)
  | saveCharacterSettings (name : String) (x : Int) (y : Int)
deriving DecidableEq, Repr

/-- The `ButtonRelease` arm of `handle_event`: the first thumbnail that
is hovered and dragging ends its drag; `focus()` fires only for the
primary button released exactly at the drag-start position.  The
returned action list records every collaborator call the arm makes. -/
def handleButtonRelease : List (Window × Thumbnail) → Int → Int → Nat →
    List (Window × Thumbnail) × List XAction
  | [], _, _, _ => ([], [])
  | (w, t) :: rest, px, py, detail =>
    if t.is_hovered px py && t.input_state.dragging then
      let actions :=
        if detail = 1 ∧ t.input_state.drag_start = (px, py) then [XAction.raiseFocus w] else []
      ((w, { t with input_state := { t.input_state with dragging := false } }) :: rest, actions)
    else
      let r := handleButtonRelease rest px py detail
      ((w, t) :: r.1, r.2)

/-- The `MotionNotify` arm of `handle_event`: the first thumbnail that
is dragging and hovered is repositioned to
`win_start + (pointer - drag_start)`. -/
def handleMotion : List (Window × Thumbnail) → Int → Int → List (Window × Thumbnail)
  | [], _, _ => []
  | (w, t) :: rest, px, py =>
    if t.input_state.dragging && t.is_hovered px py then
      let dx := px - t.input_state.drag_start.1
      let dy := py - t.input_state.drag_start.2
      (w, t.reposition (t.input_state.win_start.1 + dx) (t.input_state.win_start.2 + dy)) :: rest
    else (w, t) :: handleMotion rest px py

/-- C7: while dragging, a motion event at `(px, py)` repositions the
dragged window to `winStart + (pointer - dragStart)`; in particular a
drag started at pointer (100,100) with the window at (50,50) moves the
window to (80,40) on motion to (130,90). -/
theorem motion_repositions (l₁ l₂ : List (Window × Thumbnail)) (w : Window) (t : Thumbnail)
    (px py : Int)
    (h1 : ∀ p ∈ l₁, (p.2.input_state.dragging && p.2.is_hovered px py) = false)
    (h2 : (t.input_state.dragging && t.is_hovered px py) = true) :
    handleMotion (l₁ ++ (w, t) :: l₂) px py =
      l₁ ++ (w, t.reposition (t.input_state.win_start.1 + (px - t.input_state.drag_start.1))
        (t.input_state.win_start.2 + (py - t.input_state.drag_start.2))) :: l₂ ∧
    (t.input_state.drag_start = (100, 100) → t.input_state.win_start = (50, 50) →
      px = 130 → py = 90 →
      (t.reposition (t.input_state.win_start.1 + (px - t.input_state.drag_start.1))
        (t.input_state.win_start.2 + (py - t.input_state.drag_start.2))).x = 80 ∧
      (t.reposition (t.input_state.win_start.1 + (px - t.input_state.drag_start.1))
        (t.input_state.win_start.2 + (py - t.input_state.drag_start.2))).y = 40) := by
  constructor
  · induction l₁ with
    | nil => simp [handleMotion, h2]
    | cons p l ih =>
      cases p with
      | mk w' t' =>
        have hp := h1 (w', t') (List.mem_cons_self _ _)
        simp only [List.cons_append, handleMotion, hp]
        simp only [Bool.false_eq_true, if_false, List.cons.injEq, true_and]
        exact ih (fun q hq => h1 q (List.mem_cons_of_mem _ hq))
  · intro hd hw hx hy
    rw [hd, hw, hx, hy]
    constructor <;> rfl

/-- Witness for C7: a single dragging 240×135 thumbnail at (50,50) with
drag start (100,100); motion to (130,90) lands it at (80,40). -/
theorem motion_repositions_witness :
    handleMotion [(5, Thumbnail.mk "Alice" 50 50 240 135 true false false false
      (InputState.mk true (100, 100) (50, 50)))] 130 90 =
      [(5, Thumbnail.mk "Alice" 80 40 240 135 true false false false
        (InputState.mk true (100, 100) (50, 50)))] ∧
    (Thumbnail.mk "Alice" 80 40 240 135 true false false false
      (InputState.mk true (100, 100) (50, 50))).x = 80 := by
  have h := motion_repositions [] []
    5 (Thumbnail.mk "Alice" 50 50 240 135 true false false false
      (InputState.mk true (100, 100) (50, 50))) 130 90
    (by intro p hp; simp at hp) (by decide)
  exact ⟨by simpa [Thumbnail.reposition] using h.1, rfl⟩

/-- C8: a pointer-button release over the hovered dragging thumbnail
ends its drag, and the raise/focus call fires exactly when the button
is the primary one and the release position equals the recorded
drag-start position. -/
theorem button_release_ends_drag (l₁ l₂ : List (Window × Thumbnail)) (w : Window)
    (t : Thumbnail) (px py : Int) (detail : Nat)
    (h1 : ∀ p ∈ l₁, (p.2.is_hovered px py && p.2.input_state.dragging) = false)
    (h2 : (t.is_hovered px py && t.input_state.dragging) = true) :
    (handleButtonRelease (l₁ ++ (w, t) :: l₂) px py detail).1 =
      l₁ ++ (w, { t with input_state := { t.input_state with dragging := false } }) :: l₂ ∧
    ((handleButtonRelease (l₁ ++ (w, t) :: l₂) px py detail).2 = [XAction.raiseFocus w] ↔
      (detail = 1 ∧ t.input_state.drag_start = (px, py))) := by
  have key : ∀ l : List (Window × Thumbnail),
      (∀ p ∈ l, (p.2.is_hovered px py && p.2.input_state.dragging) = false) →
      handleButtonRelease (l ++ (w, t) :: l₂) px py detail =
        (l ++ (w, { t with input_state := { t.input_state with dragging := false } }) :: l₂,
          if detail = 1 ∧ t.input_state.drag_start = (px, py) then [XAction.raiseFocus w]
          else []) := by
    intro l
    induction l with
    | nil => intro _; simp [handleButtonRelease, h2]
    | cons p l ih =>
      intro hall
      cases p with
      | mk w' t' =>
        have hp := hall (w', t') (List.mem_cons_self _ _)
        have ih' := ih (fun q hq => hall q (List.mem_cons_of_mem _ hq))
        simp only [List.cons_append, handleButtonRelease, hp, Bool.false_eq_true, if_false,
          List.append_eq]
        rw [ih']
  constructor
  · rw [key l₁ h1]
  · rw [key l₁ h1]
    by_cases hc : detail = 1 ∧ t.input_state.drag_start = (px, py)
    · simp [hc]
    · simp [hc]

/-- Witness for C8: drag start (100,100); primary-button release at
exactly (100,100) fires raise/focus, release at (105,100) does not. -/
theorem button_release_ends_drag_witness :
    (handleButtonRelease [(5, Thumbnail.mk "Alice" 50 50 240 135 true false false false
      (InputState.mk true (100, 100) (50, 50)))] 100 100 1).2 = [XAction.raiseFocus 5] ∧
    ¬((handleButtonRelease [(5, Thumbnail.mk "Alice" 50 50 240 135 true false false false
      (InputState.mk true (100, 100) (50, 50)))] 105 100 1).2 = [XAction.raiseFocus 5]) := by
  have hA := button_release_ends_drag [] [] 5
    (Thumbnail.mk "Alice" 50 50 240 135 true false false false
      (InputState.mk true (100, 100) (50, 50))) 100 100 1
    (by intro p hp; simp at hp) (by decide)
  have hB := button_release_ends_drag [] [] 5
    (Thumbnail.mk "Alice" 50 50 240 135 true false false false
      (InputState.mk true (100, 100) (50, 50))) 105 100 1
    (by intro p hp; simp at hp) (by decide)
  refine ⟨hA.2.mpr ⟨rfl, rfl⟩, fun hcon => ?_⟩
  have := hB.2.mp hcon
  exact absurd this.2 (by decide)

/-- `PersistentState::update_position` (`src/config.rs`): record a
dragged position for a non-empty character name (the on-disk `save()`
is I/O outside the model). -/
structure PersistentState where
  character_positions : List (String × (Int × Int))
deriving DecidableEq, Repr

def PersistentState.update_position (s : PersistentState) (character_name : String)
    (x y : Int) : PersistentState :=
  if character_name ≠ "" then
    { s with character_positions := ainsert s.character_positions character_name (x, y) }
  else s

/-- Modelled from the spec: the Persistence Bridge's
`saveCharacterSettings` path — applying the dispatcher's emitted save
actions to the persistent state via `update_position`. -/
def applySaves (ps : PersistentState) : List XAction → PersistentState
  | [] => ps
  | XAction.saveCharacterSettings n x y :: rest => applySaves (ps.update_position n x y) rest
  | XAction.raiseFocus _ :: rest => applySaves ps rest

/-- C6 evidence: at a concrete drag end (release of a dragging `Alice`
thumbnail that was moved to (80,40)), the `ButtonRelease` arm only ends
the drag; it emits no `saveCharacterSettings` call, so the persisted
character positions are unchanged — the code never persists geometry on
drag end. -/
theorem drag_end_emits_no_persistence :
    (handleButtonRelease [(5, Thumbnail.mk "Alice" 80 40 240 135 true false false false
      (InputState.mk true (100, 100) (50, 50)))] 90 50 1).2 = [] ∧
    (handleButtonRelease [(5, Thumbnail.mk "Alice" 80 40 240 135 true false false false
      (InputState.mk true (100, 100) (50, 50)))] 90 50 1).1 =
      [(5, Thumbnail.mk "Alice" 80 40 240 135 true false false false
        (InputState.mk false (100, 100) (50, 50)))] ∧
    applySaves (PersistentState.mk [])
      (handleButtonRelease [(5, Thumbnail.mk "Alice" 80 40 240 135 true false false false
        (InputState.mk true (100, 100) (50, 50)))] 90 50 1).2 = PersistentState.mk [] := by
  decide

/-! ### C9: the `FocusOut` arm -/

theorem alookup_ainsert_self {α β : Type} [DecidableEq α] (l : List (α × β)) (a : α) (b : β) :
    alookup (ainsert l a b) a = some b := by
  induction l with
  | nil => simp [ainsert, alookup]
  | cons p rest ih =>
    cases p with
    | mk k v =>
      by_cases hk : k = a
      · simp [ainsert, alookup, hk]
      · simp [ainsert, alookup, hk, ih]

theorem alookup_map_visibility (l : List (Window × Thumbnail)) (b : Bool) (a : Window) :
    alookup (l.map fun p => (p.1, p.2.visibility b)) a =
      (alookup l a).map (fun u => u.visibility b) := by
  induction l with
  | nil => simp [alookup]
  | cons p rest ih =>
    cases p with
    | mk k v =>
      by_cases hk : k = a
      · simp [alookup, hk]
      · simp [alookup, hk, ih]

theorem alookup_some_mem {α β : Type} [DecidableEq α] {l : List (α × β)} {a : α} {b : β} :
    alookup l a = some b → (a, b) ∈ l := by
  induction l with
  | nil => intro h; simp [alookup] at h
  | cons p rest ih =>
    cases p with
    | mk k v =>
      intro h
      by_cases hk : k = a
      · simp only [alookup, hk, if_true, Option.some.injEq] at h
        exact List.mem_cons.mpr (Or.inl (by rw [hk, h]))
      · simp only [alookup, hk, if_false] at h
        exact List.mem_cons.mpr (Or.inr (ih h))

theorem mem_ainsert {α β : Type} [DecidableEq α] {l : List (α × β)} {a x : α} {b y : β} :
    (x, y) ∈ ainsert l a b → (x, y) ∈ l ∨ (x = a ∧ y = b) := by
  induction l with
  | nil => intro h; simp [ainsert] at h; exact Or.inr h
  | cons p rest ih =>
    cases p with
    | mk k v =>
      intro h
      by_cases hk : k = a
      · simp only [ainsert, hk, if_true, List.mem_cons] at h
        rcases h with h | h
        · exact Or.inr ⟨(Prod.ext_iff.mp h).1, (Prod.ext_iff.mp h).2⟩
        · exact Or.inl (List.mem_cons.mpr (Or.inr h))
      · simp only [ainsert, hk, if_false, List.mem_cons] at h
        rcases h with h | h
        · exact Or.inl (List.mem_cons.mpr (Or.inl h))
        · rcases ih h with h | h
          · exact Or.inl (List.mem_cons.mpr (Or.inr h))
          · exact Or.inr h

/-- The `FocusOut` arm of `handle_event`: if the window is tracked,
clear its focused flag and its border; then, under the
hide-when-no-focus policy, if no thumbnail is focused and none is
minimized, hide all thumbnails. -/
def handleFocusOut (hide_when_no_focus : Bool) (eves : List (Window × Thumbnail))
    (w : Window) : List (Window × Thumbnail) :=
  match alookup eves w with
  | none => eves
  | some t =>
    let t' := ({ t with focused := false }).border false
    let eves' := ainsert eves w t'
    if hide_when_no_focus && eves'.all (fun p => !p.2.focused && !p.2.minimized) then
      eves'.map (fun p => (p.1, p.2.visibility false))
    else eves'

/-- C9: a focus-lost event on a tracked window clears its focused flag
and removes its border; under the hide-when-unfocused policy all
thumbnails are hidden exactly when, after the clear, no thumbnail is
focused and none is minimized, and otherwise every thumbnail keeps its
previous visibility. -/
theorem focus_out_behavior (cfg : Bool) (eves : List (Window × Thumbnail)) (w : Window)
    (t : Thumbnail) (hmem : alookup eves w = some t) :
    (∀ t', alookup (handleFocusOut cfg eves w) w = some t' →
      t'.focused = false ∧ t'.bordered = false) ∧
    (alookup (handleFocusOut cfg eves w) w).isSome = true ∧
    (cfg = true →
      (ainsert eves w (({ t with focused := false }).border false)).all
        (fun p => !p.2.focused && !p.2.minimized) = true →
      ∀ p ∈ handleFocusOut cfg eves w, p.2.visible = false) ∧
    (cfg = true →
      (ainsert eves w (({ t with focused := false }).border false)).all
        (fun p => !p.2.focused && !p.2.minimized) = false →
      ∀ w' v, (w', v) ∈ handleFocusOut cfg eves w →
        ∃ u, (w', u) ∈ eves ∧ v.visible = u.visible) := by
  unfold handleFocusOut
  rw [hmem]
  simp only
  by_cases hc : (cfg && (ainsert eves w (({ t with focused := false }).border false)).all
      (fun p => !p.2.focused && !p.2.minimized)) = true
  · rw [if_pos hc]
    refine ⟨?_, ?_, ?_, ?_⟩
    · intro t' ht'
      rw [alookup_map_visibility, alookup_ainsert_self] at ht'
      simp only [Option.map_some', Option.some.injEq] at ht'
      rw [← ht']
      exact ⟨rfl, rfl⟩
    · rw [alookup_map_visibility, alookup_ainsert_self]
      rfl
    · intro _ _ p hp
      rcases List.mem_map.mp hp with ⟨q, _, hq⟩
      rw [← hq]
      rfl
    · intro hcfg hall
      rw [hcfg, Bool.true_and] at hc
      rw [hall] at hc
      exact absurd hc (by decide)
  · rw [if_neg hc]
    refine ⟨?_, ?_, ?_, ?_⟩
    · intro t' ht'
      rw [alookup_ainsert_self] at ht'
      simp only [Option.some.injEq] at ht'
      rw [← ht']
      exact ⟨rfl, rfl⟩
    · rw [alookup_ainsert_self]
      rfl
    · intro hcfg hall
      rw [hcfg, Bool.true_and, hall] at hc
      exact absurd rfl hc
    · intro _ _ w' v hv
      rcases mem_ainsert hv with hv | hv
      · exact ⟨v, hv, rfl⟩
      · refine ⟨t, ?_, ?_⟩
        · rw [hv.1]
          exact alookup_some_mem hmem
        · rw [hv.2]
          rfl

/-- Witness for C9: with the policy on and two tracked thumbnails, the
focus-lost clear leaves nobody focused or minimized, so everything is
hidden; the entry for the event window stays tracked. -/
theorem focus_out_behavior_witness :
    ((handleFocusOut true
      [(1, Thumbnail.mk "A" 0 0 10 10 true true false true (InputState.mk false (0, 0) (0, 0))),
       (2, Thumbnail.mk "B" 20 0 10 10 true false false false
         (InputState.mk false (0, 0) (0, 0)))] 1).all fun p => !p.2.visible) = true ∧
    (alookup (handleFocusOut true
      [(1, Thumbnail.mk "A" 0 0 10 10 true true false true (InputState.mk false (0, 0) (0, 0))),
       (2, Thumbnail.mk "B" 20 0 10 10 true false false false
         (InputState.mk false (0, 0) (0, 0)))] 1) 1).isSome = true := by
  have h := focus_out_behavior true
    [(1, Thumbnail.mk "A" 0 0 10 10 true true false true (InputState.mk false (0, 0) (0, 0))),
     (2, Thumbnail.mk "B" 20 0 10 10 true false false false
       (InputState.mk false (0, 0) (0, 0)))] 1
    (Thumbnail.mk "A" 0 0 10 10 true true false true (InputState.mk false (0, 0) (0, 0)))
    (by decide)
  refine ⟨List.all_eq_true.mpr fun p hp => ?_, h.2.1⟩
  have hv := h.2.2.1 rfl (by decide) p hp
  simp [hv]

/-! ### Scan-loop characterization (for C2 and C10) -/

/-- Adding distinct amounts below the modulus to the same base gives
distinct residues. -/
theorem add_mod_inj {len a u v : Nat} (_hlen : 0 < len) (hu : u < len) (hv : v < len)
    (h : (a + u) % len = (a + v) % len) : u = v := by
  have h1 : u ≡ v [MOD len] := Nat.ModEq.add_left_cancel (Nat.ModEq.refl a) h
  have h2 : u % len = v % len := h1
  rwa [Nat.mod_eq_of_lt hu, Nat.mod_eq_of_lt hv] at h2

/-- The backward step `if i = 0 then len - 1 else i - 1`, evaluated at
`(s + (n + 1)) % len`, lands on `(s + n) % len`. -/
theorem bstep_mod (len s n : Nat) (hlen : 0 < len) :
    (if (s + (n + 1)) % len = 0 then len - 1 else (s + (n + 1)) % len - 1) =
      (s + n) % len := by
  have hx : (s + n) % len < len := Nat.mod_lt _ hlen
  have hrec : (s + (n + 1)) % len = ((s + n) % len + 1) % len := by
    rw [Nat.mod_add_mod]
    congr 1
  by_cases hxe : (s + n) % len + 1 < len
  · have h1 : (s + (n + 1)) % len = (s + n) % len + 1 := by
      rw [hrec]
      exact Nat.mod_eq_of_lt hxe
    rw [h1, if_neg (by omega)]
    omega
  · have hxeq : (s + n) % len + 1 = len := by omega
    have h1 : (s + (n + 1)) % len = 0 := by
      rw [hrec, hxeq]
      exact Nat.mod_self len
    rw [h1, if_pos rfl]
    omega

/-- Forward-scan success: if the `t`-th successor of `i` (mod the order
length) is the first active index on the path and no earlier step wraps
to `start`, the forward loop stops exactly there. -/
theorem cycleScanF_found (order : List String) (active : List (String × Window)) (start : Nat) :
    ∀ (t fuel i : Nat), 1 ≤ t → t ≤ fuel →
      (∀ u, 1 ≤ u → u < t →
        alookup active (order.getD ((i + u) % order.length) "") = none) →
      (∀ u, 1 ≤ u → u < t → (i + u) % order.length ≠ start) →
      ∀ w, alookup active (order.getD ((i + t) % order.length) "") = some w →
      cycleScanF order active start i fuel = ((i + t) % order.length, some w) := by
  intro t
  induction t with
  | zero => intro fuel i h1; exact absurd h1 (by decide)
  | succ n ih =>
    intro fuel i h1 h2 hnone hnstart w hw
    cases fuel with
    | zero => exact absurd h2 (by omega)
    | succ m =>
      rw [cycleScanF]
      by_cases hn : n = 0
      · subst hn
        simp only [Nat.zero_add] at hw ⊢
        simp only [hw]
      · have hstep : alookup active (order.getD ((i + 1) % order.length) "") = none :=
          hnone 1 le_rfl (by omega)
        have hne : (i + 1) % order.length ≠ start := hnstart 1 le_rfl (by omega)
        simp only [hstep, hne, if_false]
        have harith : ∀ u : Nat, ((i + 1) % order.length + u) % order.length =
            (i + (u + 1)) % order.length := by
          intro u
          rw [Nat.mod_add_mod]
          congr 1
          omega
        have ih' := ih m ((i + 1) % order.length) (by omega) (by omega)
          (fun u hu1 hu2 => by rw [harith u]; exact hnone (u + 1) (by omega) (by omega))
          (fun u hu1 hu2 => by rw [harith u]; exact hnstart (u + 1) (by omega) (by omega))
          w (by rw [harith n]; exact hw)
        rw [ih', harith n]

/-- Backward-scan success: starting `t` forward-steps past an active
base index `s` whose `t - 1` successors are all inactive and never hit
the scan's wrap anchor, the backward loop walks back and stops at `s`. -/
theorem cycleScanB_reaches (order : List String) (active : List (String × Window))
    (bstart s : Nat) (hs : s < order.length) :
    ∀ (t fuel : Nat), 1 ≤ t → t ≤ fuel →
      (∀ v, 1 ≤ v → v < t →
        alookup active (order.getD ((s + v) % order.length) "") = none) →
      (∀ v, 1 ≤ v → v < t → (s + v) % order.length ≠ bstart) →
      ∀ w, alookup active (order.getD s "") = some w →
      cycleScanB order active bstart ((s + t) % order.length) fuel = (s, some w) := by
  have hlen : 0 < order.length := Nat.lt_of_le_of_lt (Nat.zero_le s) hs
  intro t
  induction t with
  | zero => intro fuel h1; exact absurd h1 (by decide)
  | succ n ih =>
    intro fuel h1 h2 hnone hnstart w hw
    cases fuel with
    | zero => exact absurd h2 (by omega)
    | succ m =>
      rw [cycleScanB]
      rw [bstep_mod order.length s n hlen]
      by_cases hn : n = 0
      · subst hn
        have hs0 : (s + 0) % order.length = s := by
          rw [Nat.add_zero]
          exact Nat.mod_eq_of_lt hs
        rw [hs0]
        simp only [hw]
      · have hstep : alookup active (order.getD ((s + n) % order.length) "") = none :=
          hnone n (by omega) (by omega)
        have hne : (s + n) % order.length ≠ bstart := hnstart n (by omega) (by omega)
        simp only [hstep, hne, if_false]
        exact ih m (by omega) (by omega)
          (fun v hv1 hv2 => hnone v hv1 (by omega))
          (fun v hv1 hv2 => hnstart v hv1 (by omega)) w hw

/-- The forward scan never leaves the index range `[0, len)`. -/
theorem cycleScanF_fst_lt (order : List String) (active : List (String × Window))
    (start : Nat) (hlen : 0 < order.length) :
    ∀ (fuel i : Nat), i < order.length →
      (cycleScanF order active start i fuel).1 < order.length := by
  intro fuel
  induction fuel with
  | zero => intro i hi; simpa [cycleScanF] using hi
  | succ m ih =>
    intro i hi
    rw [cycleScanF]
    cases hl : alookup active (order.getD ((i + 1) % order.length) "") with
    | some w => simp only [hl]; exact Nat.mod_lt _ hlen
    | none =>
      simp only [hl]
      by_cases hj : (i + 1) % order.length = start
      · simp only [hj, if_true]
        rw [← hj]
        exact Nat.mod_lt _ hlen
      · simp only [hj, if_false]
        exact ih _ (Nat.mod_lt _ hlen)

/-- The backward scan never leaves the index range `[0, len)`. -/
theorem cycleScanB_fst_lt (order : List String) (active : List (String × Window))
    (start : Nat) (hlen : 0 < order.length) :
    ∀ (fuel i : Nat), i < order.length →
      (cycleScanB order active start i fuel).1 < order.length := by
  intro fuel
  induction fuel with
  | zero => intro i hi; simpa [cycleScanB] using hi
  | succ m ih =>
    intro i hi
    rw [cycleScanB]
    by_cases h0 : i = 0
    · simp only [h0, if_true, if_pos rfl]
      cases hl : alookup active (order.getD (order.length - 1) "") with
      | some w => simp only [hl]; omega
      | none =>
        simp only [hl]
        by_cases hj : order.length - 1 = start
        · simp only [hj, if_true]; omega
        · simp only [hj, if_false]; exact ih _ (by omega)
    · simp only [h0, if_false]
      cases hl : alookup active (order.getD (i - 1) "") with
      | some w => simp only [hl]; omega
      | none =>
        simp only [hl]
        by_cases hj : i - 1 = start
        · simp only [hj, if_true]; omega
        · simp only [hj, if_false]; exact ih _ (by omega)

/-- A key present in the map is found by `alookup`. -/
theorem alookup_ne_none_of_mem {α β : Type} [DecidableEq α] {l : List (α × β)} {a : α} {b : β}
    (h : (a, b) ∈ l) : alookup l a ≠ none := by
  induction l with
  | nil => simp at h
  | cons p rest ih =>
    cases p with
    | mk k v =>
      by_cases hk : k = a
      · simp [alookup, hk]
      · rcases List.mem_cons.mp h with h1 | h1
        · exact absurd (Prod.ext_iff.mp h1).1.symm hk
        · simp only [alookup, hk, if_false]
          exact ih h1

/-- If some index of the config order is active, `cycle_forward` stops
at the first active successor of the current index and returns its
window. -/
theorem cycle_forward_finds (s : CycleState)
    (hlt : s.current_index < s.config_order.length)
    (hne : s.active_windows ≠ [])
    (j : Nat) (hj : j < s.config_order.length)
    (hjact : alookup s.active_windows (s.config_order.getD j "") ≠ none) :
    ∃ (w : Window) (t₀ : Nat), 1 ≤ t₀ ∧ t₀ ≤ s.config_order.length ∧
      s.cycle_forward = (some w,
        { s with current_index := (s.current_index + t₀) % s.config_order.length }) ∧
      alookup s.active_windows
        (s.config_order.getD ((s.current_index + t₀) % s.config_order.length) "") = some w ∧
      (∀ u, 1 ≤ u → u < t₀ →
        alookup s.active_windows
          (s.config_order.getD ((s.current_index + u) % s.config_order.length) "") = none) := by
  have hlen : 0 < s.config_order.length := Nat.lt_of_le_of_lt (Nat.zero_le j) hj
  have hord : s.config_order ≠ [] := by
    intro h
    rw [h] at hlen
    simp at hlen
  have hex : ∃ t, (1 ≤ t ∧ alookup s.active_windows
      (s.config_order.getD ((s.current_index + t) % s.config_order.length) "") ≠ none) ∧
      t ≤ s.config_order.length := by
    by_cases hc : s.current_index < j
    · refine ⟨j - s.current_index, ⟨by omega, ?_⟩, by omega⟩
      rw [show s.current_index + (j - s.current_index) = j from by omega, Nat.mod_eq_of_lt hj]
      exact hjact
    · refine ⟨j + s.config_order.length - s.current_index, ⟨by omega, ?_⟩, by omega⟩
      rw [show s.current_index + (j + s.config_order.length - s.current_index) =
        j + s.config_order.length from by omega, Nat.add_mod_right, Nat.mod_eq_of_lt hj]
      exact hjact
  have hex' : ∃ t, 1 ≤ t ∧ alookup s.active_windows
      (s.config_order.getD ((s.current_index + t) % s.config_order.length) "") ≠ none :=
    ⟨hex.choose, hex.choose_spec.1⟩
  have ht₀1 : 1 ≤ Nat.find hex' := (Nat.find_spec hex').1
  have ht₀act := (Nat.find_spec hex').2
  have ht₀len : Nat.find hex' ≤ s.config_order.length :=
    Nat.le_trans (Nat.find_min' hex' hex.choose_spec.1) hex.choose_spec.2
  obtain ⟨w, hw⟩ := Option.ne_none_iff_exists'.mp ht₀act
  have hnone : ∀ u, 1 ≤ u → u < Nat.find hex' →
      alookup s.active_windows
        (s.config_order.getD ((s.current_index + u) % s.config_order.length) "") = none := by
    intro u hu1 hu2
    have hmin := Nat.find_min hex' hu2
    simp only [hu1, true_and, ne_eq, not_not] at hmin
    exact hmin
  have hnstart : ∀ u, 1 ≤ u → u < Nat.find hex' →
      (s.current_index + u) % s.config_order.length ≠ s.current_index := by
    intro u hu1 hu2 heq
    have heq' : (s.current_index + u) % s.config_order.length =
        (s.current_index + 0) % s.config_order.length := by
      rw [Nat.add_zero, Nat.mod_eq_of_lt hlt]
      exact heq
    have := add_mod_inj hlen (by omega) hlen heq'
    omega
  have hscan := cycleScanF_found s.config_order s.active_windows s.current_index
    (Nat.find hex') s.config_order.length s.current_index ht₀1 ht₀len hnone hnstart w hw
  refine ⟨w, Nat.find hex', ht₀1, ht₀len, ?_, hw, hnone⟩
  unfold CycleState.cycle_forward
  rw [if_neg hne, if_neg hord]
  simp only [hscan]

/-! ### C2: forward/backward roundtrip -/

/-- One roundtrip: when the current index is in range and its character
is active, `cycle_forward` lands on an in-range active index, and a
following `cycle_backward` restores the state exactly. -/
theorem cycle_roundtrip_step (s : CycleState)
    (hlt : s.current_index < s.config_order.length)
    (hact : alookup s.active_windows (s.config_order.getD s.current_index "") ≠ none) :
    s.cycle_forward.2.current_index < s.cycle_forward.2.config_order.length ∧
    alookup s.cycle_forward.2.active_windows
      (s.cycle_forward.2.config_order.getD s.cycle_forward.2.current_index "") ≠ none ∧
    s.cycle_forward.2.cycle_backward.2 = s := by
  have hlen : 0 < s.config_order.length := Nat.lt_of_le_of_lt (Nat.zero_le _) hlt
  have hord : s.config_order ≠ [] := by
    intro h
    rw [h] at hlen
    simp at hlen
  have hne : s.active_windows ≠ [] := by
    intro h
    rw [h] at hact
    exact hact rfl
  obtain ⟨w, t₀, ht1, htlen, hcf, hw, hnone⟩ :=
    cycle_forward_finds s hlt hne s.current_index hlt hact
  obtain ⟨w₀, hw₀⟩ := Option.ne_none_iff_exists'.mp hact
  rw [hcf]
  simp only
  refine ⟨Nat.mod_lt _ hlen, by rw [hw]; exact Option.some_ne_none w, ?_⟩
  -- the backward call from the forward landing point
  have hnstart : ∀ v, 1 ≤ v → v < t₀ →
      (s.current_index + v) % s.config_order.length ≠
        (s.current_index + t₀) % s.config_order.length := by
    intro v hv1 hv2 heq
    rcases Nat.lt_or_ge t₀ s.config_order.length with hcase | hcase
    · have := add_mod_inj hlen (by omega) hcase heq
      omega
    · have ht₀eq : t₀ = s.config_order.length := by omega
      have heq' : (s.current_index + v) % s.config_order.length =
          (s.current_index + 0) % s.config_order.length := by
        rw [heq, ht₀eq, Nat.add_mod_right, Nat.add_zero]
      have := add_mod_inj hlen (by omega) hlen heq'
      omega
  have hscanb := cycleScanB_reaches s.config_order s.active_windows
    ((s.current_index + t₀) % s.config_order.length) s.current_index hlt
    t₀ s.config_order.length ht1 htlen hnone hnstart w₀ hw₀
  unfold CycleState.cycle_backward
  rw [if_neg hne, if_neg hord]
  simp only [hscanb]

/-- Apply `cycle_forward` N times (discarding the returned handles). -/
def cycleForwardN : Nat → CycleState → CycleState
  | 0, s => s
  | n + 1, s => (cycleForwardN n s).cycle_forward.2

/-- Apply `cycle_backward` N times (discarding the returned handles). -/
def cycleBackwardN : Nat → CycleState → CycleState
  | 0, s => s
  | n + 1, s => cycleBackwardN n s.cycle_backward.2

/-- C2 (amended): N `cycle_forward` calls followed by N `cycle_backward`
calls restore the state — hence `CurrentIndex` — exactly, provided the
current index is within `CycleOrder`'s bounds and the character name at
the current index is a key of `ActiveWindowMap` (both hold for the
states the running program cycles from; without the key condition the
scans skip the inactive starting name and the cursor moves, see the
counterexample). -/
theorem cycle_forward_backward_roundtrip (N : Nat) :
    ∀ (s : CycleState), s.current_index < s.config_order.length →
      alookup s.active_windows (s.config_order.getD s.current_index "") ≠ none →
      cycleBackwardN N (cycleForwardN N s) = s := by
  induction N with
  | zero => intro s _ _; rfl
  | succ n ih =>
    intro s hlt hact
    have hinv : ∀ m : Nat,
        (cycleForwardN m s).current_index < (cycleForwardN m s).config_order.length ∧
        alookup (cycleForwardN m s).active_windows
          ((cycleForwardN m s).config_order.getD (cycleForwardN m s).current_index "") ≠
            none := by
      intro m
      induction m with
      | zero => exact ⟨hlt, hact⟩
      | succ k ihk =>
        have step := cycle_roundtrip_step (cycleForwardN k s) ihk.1 ihk.2
        exact ⟨step.1, step.2.1⟩
    have hstep := cycle_roundtrip_step (cycleForwardN n s) (hinv n).1 (hinv n).2
    show cycleBackwardN n ((cycleForwardN n s).cycle_forward.2.cycle_backward.2) = s
    rw [hstep.2.2]
    exact ih s hlt hact

/-- Witness for C2 (amended): two forward cycles then two backward
cycles on the fully active A/B/C state restore it exactly. -/
theorem cycle_forward_backward_roundtrip_witness :
    cycleBackwardN 2 (cycleForwardN 2 ((((CycleState.new ["A", "B", "C"]).add_window
      "A" 10).add_window "B" 20).add_window "C" 30)) =
      (((CycleState.new ["A", "B", "C"]).add_window "A" 10).add_window "B" 20).add_window
        "C" 30 :=
  cycle_forward_backward_roundtrip 2
    ((((CycleState.new ["A", "B", "C"]).add_window "A" 10).add_window "B" 20).add_window "C" 30)
    (by decide) (by decide)

/-- Counterexample to C2 as stated: with `CycleOrder = [A, B]`, only `B`
active and `CurrentIndex = 0` (a state reached by
`new(["A","B"]); add_window("B", 20)`), one `cycle_forward` followed by
one `cycle_backward` leaves `CurrentIndex = 1`, not 0: both scans skip
the inactive `A` at the starting index. -/
theorem roundtrip_moves_from_inactive_index :
    (((CycleState.new ["A", "B"]).add_window "B" 20).cycle_forward.2.cycle_backward.2
      ).current_index ≠
      ((CycleState.new ["A", "B"]).add_window "B" 20).current_index := by decide

/-! ### C10: reachable-state invariants -/

/-- If some index of the config order is active, `cycle_backward`
returns a window. -/
theorem cycle_backward_finds (s : CycleState)
    (hlt : s.current_index < s.config_order.length)
    (hne : s.active_windows ≠ [])
    (j : Nat) (hj : j < s.config_order.length)
    (hjact : alookup s.active_windows (s.config_order.getD j "") ≠ none) :
    ∃ w : Window, s.cycle_backward.1 = some w := by
  have hlen : 0 < s.config_order.length := Nat.lt_of_le_of_lt (Nat.zero_le j) hj
  have hord : s.config_order ≠ [] := by
    intro h
    rw [h] at hlen
    simp at hlen
  have hex : ∃ t, (1 ≤ t ∧ alookup s.active_windows
      (s.config_order.getD
        ((s.current_index + (s.config_order.length - t)) % s.config_order.length) "") ≠
          none) ∧ t ≤ s.config_order.length := by
    by_cases hc : j < s.current_index
    · refine ⟨s.current_index - j, ⟨by omega, ?_⟩, by omega⟩
      rw [show s.current_index + (s.config_order.length - (s.current_index - j)) =
        j + s.config_order.length from by omega, Nat.add_mod_right, Nat.mod_eq_of_lt hj]
      exact hjact
    · refine ⟨s.config_order.length - (j - s.current_index), ⟨by omega, ?_⟩, by omega⟩
      rw [show s.config_order.length - (s.config_order.length - (j - s.current_index)) =
        j - s.current_index from by omega,
        show s.current_index + (j - s.current_index) = j from by omega, Nat.mod_eq_of_lt hj]
      exact hjact
  have hex' : ∃ t, 1 ≤ t ∧ alookup s.active_windows
      (s.config_order.getD
        ((s.current_index + (s.config_order.length - t)) % s.config_order.length) "") ≠
          none :=
    ⟨hex.choose, hex.choose_spec.1⟩
  have ht₀1 : 1 ≤ Nat.find hex' := (Nat.find_spec hex').1
  have ht₀act := (Nat.find_spec hex').2
  have ht₀len : Nat.find hex' ≤ s.config_order.length :=
    Nat.le_trans (Nat.find_min' hex' hex.choose_spec.1) hex.choose_spec.2
  obtain ⟨w, hw⟩ := Option.ne_none_iff_exists'.mp ht₀act
  have hrw : ∀ v, v ≤ Nat.find hex' →
      ((s.current_index + (s.config_order.length - Nat.find hex')) % s.config_order.length + v)
        % s.config_order.length =
      (s.current_index + (s.config_order.length - (Nat.find hex' - v)))
        % s.config_order.length := by
    intro v hv
    rw [Nat.mod_add_mod]
    congr 1
    omega
  have hnone : ∀ v, 1 ≤ v → v < Nat.find hex' →
      alookup s.active_windows (s.config_order.getD
        (((s.current_index + (s.config_order.length - Nat.find hex')) % s.config_order.length
          + v) % s.config_order.length) "") = none := by
    intro v hv1 hv2
    rw [hrw v (by omega)]
    have hmin := Nat.find_min hex' (show Nat.find hex' - v < Nat.find hex' from by omega)
    simp only [show 1 ≤ Nat.find hex' - v from by omega, true_and, ne_eq, not_not] at hmin
    exact hmin
  have hnstart : ∀ v, 1 ≤ v → v < Nat.find hex' →
      ((s.current_index + (s.config_order.length - Nat.find hex')) % s.config_order.length + v)
        % s.config_order.length ≠ s.current_index := by
    intro v hv1 hv2 heq
    rw [hrw v (by omega)] at heq
    have heq' : (s.current_index + (s.config_order.length - (Nat.find hex' - v)))
        % s.config_order.length =
        (s.current_index + 0) % s.config_order.length := by
      rw [heq, Nat.add_zero, Nat.mod_eq_of_lt hlt]
    have := add_mod_inj hlen (by omega) hlen heq'
    omega
  have hscan := cycleScanB_reaches s.config_order s.active_windows s.current_index
    ((s.current_index + (s.config_order.length - Nat.find hex')) % s.config_order.length)
    (Nat.mod_lt _ hlen) (Nat.find hex') s.config_order.length ht₀1 ht₀len hnone hnstart w hw
  have harg : ((s.current_index + (s.config_order.length - Nat.find hex'))
      % s.config_order.length + Nat.find hex') % s.config_order.length = s.current_index := by
    rw [Nat.mod_add_mod,
      show s.current_index + (s.config_order.length - Nat.find hex') + Nat.find hex' =
        s.current_index + s.config_order.length from by omega,
      Nat.add_mod_right, Nat.mod_eq_of_lt hlt]
  rw [harg] at hscan
  refine ⟨w, ?_⟩
  unfold CycleState.cycle_backward
  rw [if_neg hne, if_neg hord]
  simp only [hscan]

/-- Bound extracted from a successful `findIdx?`. -/
theorem findIdx?_some_lt {α : Type} (p : α → Bool) (l : List α) {i : Nat}
    (h : l.findIdx? p = some i) : i < l.length := by
  obtain ⟨hlt, -⟩ := List.findIdx?_eq_some_iff_getElem.mp h
  exact hlt

/-- A member of a list is hit by `getD` at some in-range index. -/
theorem mem_getD {l : List String} {a : String} (h : a ∈ l) :
    ∃ j, j < l.length ∧ l.getD j "" = a := by
  obtain ⟨⟨j, hj⟩, hget⟩ := List.mem_iff_get.mp h
  exact ⟨j, hj, by rw [List.getD_eq_get l "" hj]; exact hget⟩

/-- States reachable from `CycleState::new` by the cycle navigator's
public operations. -/
inductive Reachable : CycleState → Prop where
  | new (order : List String) : Reachable (CycleState.new order)
  | add (s : CycleState) (n : String) (w : Window) : Reachable s → Reachable (s.add_window n w)
  | remove (s : CycleState) (w : Window) : Reachable s → Reachable (s.remove_window w)
  | update (s : CycleState) (w : Window) (n : String) :
      Reachable s → Reachable (s.update_character w n)
  | fwd (s : CycleState) : Reachable s → Reachable s.cycle_forward.2
  | bwd (s : CycleState) : Reachable s → Reachable s.cycle_backward.2
  | setc (s : CycleState) (n : String) : Reachable s → Reachable (s.set_current n).2

/-- The inductive invariant: every active key occurs in the config
order, and the cursor is in range (or pinned to 0 on an empty order). -/
def GoodState (s : CycleState) : Prop :=
  (∀ p ∈ s.active_windows, p.1 ∈ s.config_order) ∧
  (s.current_index < s.config_order.length ∨
    (s.config_order = [] ∧ s.current_index = 0))

theorem goodState_new (order : List String) : GoodState (CycleState.new order) := by
  constructor
  · intro p hp
    simp [CycleState.new] at hp
  · cases order with
    | nil => exact Or.inr ⟨rfl, rfl⟩
    | cons a t => exact Or.inl (by simp [CycleState.new])

theorem goodState_add (s : CycleState) (n : String) (w : Window) (h : GoodState s) :
    GoodState (s.add_window n w) := by
  obtain ⟨hk, hi⟩ := h
  constructor
  · intro p hp
    unfold CycleState.add_window at hp ⊢
    simp only at hp ⊢
    cases p with
    | mk a b =>
      rcases mem_ainsert hp with hm | hm
      · have ha := hk (a, b) hm
        by_cases hc : s.config_order.contains n = true
        · simp only [hc, if_true]
          exact ha
        · simp only [hc, if_false]
          exact List.mem_append.mpr (Or.inl ha)
      · rw [hm.1]
        by_cases hc : s.config_order.contains n = true
        · simp only [hc, if_true]
          exact List.elem_iff.mp hc
        · simp only [hc, if_false]
          exact List.mem_append.mpr (Or.inr (List.mem_singleton.mpr rfl))
  · unfold CycleState.add_window
    simp only
    rcases hi with hi | ⟨ho, hz⟩
    · left
      by_cases hc : s.config_order.contains n = true
      · rw [if_pos hc]
        exact hi
      · rw [if_neg hc, List.length_append]
        omega
    · left
      by_cases hc : s.config_order.contains n = true
      · rw [ho] at hc
        simp at hc
      · rw [if_neg hc, ho, hz]
        simp

theorem clamp_index_config_order (s : CycleState) :
    s.clamp_index.config_order = s.config_order := by
  unfold CycleState.clamp_index
  split <;> rfl

theorem clamp_index_valid (s : CycleState)
    (h : s.current_index < s.config_order.length ∨
      (s.config_order = [] ∧ s.current_index = 0)) :
    s.clamp_index.current_index < s.clamp_index.config_order.length ∨
      (s.clamp_index.config_order = [] ∧ s.clamp_index.current_index = 0) := by
  unfold CycleState.clamp_index
  split
  · rename_i hcond
    left
    simp only
    exact List.length_pos.mpr hcond.1
  · exact h

theorem goodState_remove (s : CycleState) (w : Window) (h : GoodState s) :
    GoodState (s.remove_window w) := by
  obtain ⟨hk, hi⟩ := h
  unfold CycleState.remove_window
  cases hf : findNameByWindow s.active_windows w with
  | none => exact ⟨hk, hi⟩
  | some name =>
    constructor
    · intro p hp
      rw [clamp_index_active_windows] at hp
      rw [clamp_index_config_order]
      simp only at hp ⊢
      exact hk p ((aerase_sublist _ _).subset hp)
    · exact clamp_index_valid _ hi

theorem goodState_update (s : CycleState) (w : Window) (n : String) (h : GoodState s) :
    GoodState (s.update_character w n) := by
  unfold CycleState.update_character
  cases hf : findNameByWindow s.active_windows w with
  | none =>
    simp only [hf]
    exact goodState_add s n w h
  | some old =>
    simp only [hf]
    refine goodState_add _ n w ⟨?_, h.2⟩
    intro p hp
    simp only at hp ⊢
    exact h.1 p ((aerase_sublist _ _).subset hp)

theorem cycle_forward_eq_self_of_guard (s : CycleState)
    (h : s.active_windows = [] ∨ s.config_order = []) : s.cycle_forward.2 = s := by
  unfold CycleState.cycle_forward
  rcases h with h | h
  · rw [if_pos h]
  · by_cases h1 : s.active_windows = []
    · rw [if_pos h1]
    · rw [if_neg h1, if_pos h]

theorem cycle_backward_eq_self_of_guard (s : CycleState)
    (h : s.active_windows = [] ∨ s.config_order = []) : s.cycle_backward.2 = s := by
  unfold CycleState.cycle_backward
  rcases h with h | h
  · rw [if_pos h]
  · by_cases h1 : s.active_windows = []
    · rw [if_pos h1]
    · rw [if_neg h1, if_pos h]

theorem cycle_forward_index (s : CycleState) (h1 : s.active_windows ≠ [])
    (h2 : s.config_order ≠ []) :
    s.cycle_forward.2.current_index =
      (cycleScanF s.config_order s.active_windows s.current_index s.current_index
        s.config_order.length).1 := by
  unfold CycleState.cycle_forward
  rw [if_neg h1, if_neg h2]

theorem cycle_backward_index (s : CycleState) (h1 : s.active_windows ≠ [])
    (h2 : s.config_order ≠ []) :
    s.cycle_backward.2.current_index =
      (cycleScanB s.config_order s.active_windows s.current_index s.current_index
        s.config_order.length).1 := by
  unfold CycleState.cycle_backward
  rw [if_neg h1, if_neg h2]

theorem goodState_fwd (s : CycleState) (h : GoodState s) : GoodState s.cycle_forward.2 := by
  obtain ⟨hk, hi⟩ := h
  constructor
  · intro p hp
    rw [cycle_forward_active_windows] at hp
    rw [cycle_forward_config_order]
    exact hk p hp
  · by_cases h1 : s.active_windows = []
    · rw [cycle_forward_eq_self_of_guard s (Or.inl h1)]
      exact hi
    · by_cases h2 : s.config_order = []
      · rw [cycle_forward_eq_self_of_guard s (Or.inr h2)]
        exact hi
      · left
        rw [cycle_forward_config_order, cycle_forward_index s h1 h2]
        refine cycleScanF_fst_lt _ _ _ (List.length_pos.mpr h2) _ _ ?_
        rcases hi with hi | ⟨ho, _⟩
        · exact hi
        · exact absurd ho h2

theorem goodState_bwd (s : CycleState) (h : GoodState s) : GoodState s.cycle_backward.2 := by
  obtain ⟨hk, hi⟩ := h
  constructor
  · intro p hp
    rw [cycle_backward_active_windows] at hp
    rw [cycle_backward_config_order]
    exact hk p hp
  · by_cases h1 : s.active_windows = []
    · rw [cycle_backward_eq_self_of_guard s (Or.inl h1)]
      exact hi
    · by_cases h2 : s.config_order = []
      · rw [cycle_backward_eq_self_of_guard s (Or.inr h2)]
        exact hi
      · left
        rw [cycle_backward_config_order, cycle_backward_index s h1 h2]
        refine cycleScanB_fst_lt _ _ _ (List.length_pos.mpr h2) _ _ ?_
        rcases hi with hi | ⟨ho, _⟩
        · exact hi
        · exact absurd ho h2

theorem goodState_set (s : CycleState) (n : String) (h : GoodState s) :
    GoodState (s.set_current n).2 := by
  unfold CycleState.set_current
  cases hf : s.config_order.findIdx? (fun c => c = n) with
  | none =>
    simp only [hf]
    exact h
  | some i =>
    simp only [hf]
    refine ⟨h.1, Or.inl ?_⟩
    simp only
    exact findIdx?_some_lt _ _ hf

/-- All reachable states satisfy the inductive invariant. -/
theorem reachable_goodState {s : CycleState} (h : Reachable s) : GoodState s := by
  induction h with
  | new order => exact goodState_new order
  | add s n w _ ih => exact goodState_add s n w ih
  | remove s w _ ih => exact goodState_remove s w ih
  | update s w n _ ih => exact goodState_update s w n ih
  | fwd s _ ih => exact goodState_fwd s ih
  | bwd s _ ih => exact goodState_bwd s ih
  | setc s n _ ih => exact goodState_set s n ih

/-- C10: on every reachable state, every key of `active_windows` occurs
in `config_order`; consequently, whenever `active_windows` is
non-empty, `cycle_forward` and `cycle_backward` return a window — the
full-wrap "no active character found" failure branch cannot fire. -/
theorem reachable_cycle_invariant (s : CycleState) (hr : Reachable s) :
    (∀ p ∈ s.active_windows, p.1 ∈ s.config_order) ∧
    (s.active_windows ≠ [] →
      (∃ w, s.cycle_forward.1 = some w) ∧ ∃ w, s.cycle_backward.1 = some w) := by
  obtain ⟨hk, hi⟩ := reachable_goodState hr
  refine ⟨hk, fun hne => ?_⟩
  obtain ⟨p, hp⟩ := List.exists_mem_of_ne_nil s.active_windows hne
  have hporder : p.1 ∈ s.config_order := hk p hp
  have hord : s.config_order ≠ [] := by
    intro h
    rw [h] at hporder
    simp at hporder
  have hlt : s.current_index < s.config_order.length := by
    rcases hi with hi | ⟨ho, _⟩
    · exact hi
    · exact absurd ho hord
  obtain ⟨jf, hjlt, hjget⟩ := mem_getD hporder
  have hjact : alookup s.active_windows (s.config_order.getD jf "") ≠ none := by
    rw [hjget]
    cases p with
    | mk a b => exact alookup_ne_none_of_mem hp
  constructor
  · obtain ⟨w, t₀, _, _, hcf, _, _⟩ := cycle_forward_finds s hlt hne jf hjlt hjact
    exact ⟨w, by rw [hcf]⟩
  · exact cycle_backward_finds s hlt hne jf hjlt hjact

/-- Witness for C10: from the reachable one-character state, cycling
forward returns a window. -/
theorem reachable_cycle_invariant_witness :
    ((CycleState.new ["A"]).add_window "A" 10).cycle_forward.1.isSome = true := by
  have hr : Reachable ((CycleState.new ["A"]).add_window "A" 10) :=
    Reachable.add (CycleState.new ["A"]) "A" 10 (Reachable.new ["A"])
  obtain ⟨w, hw⟩ := ((reachable_cycle_invariant _ hr).2 (by decide)).1
  rw [hw]
  rfl

end EvePreview
